import Mathlib

/-!
# A verification model of the write-ahead-log repository

This file embeds the Go sources `03-write-ahead-log/log.go` (the framed,
checksummed `FileLog`) and `03-write-ahead-log/wal.go` (the `WriteAheadLog`
key-value layer) into Lean, and proves the behavioural properties stated in
the repository's specification.

Modelling choices:
* A byte is a `Nat` (with `< 256` side conditions where the values matter);
  the backing file is a `List Nat`.  `FileLog.file = none` models the `nil`
  file handle after `Close`.
* Machine integers (`uint64` lengths/offsets, `uint32` checksums) are `Nat`s;
  big-endian encoding/decoding (`encoding/binary`) is explicit.
* `crc32.ChecksumIEEE` is Go's reflected CRC-32: initial state `0xFFFFFFFF`,
  per byte xor-into-state followed by eight shift-xor steps with the
  reversed polynomial `0xEDB88320`, final xor with `0xFFFFFFFF` (the table in
  Go's `hash/crc32` is exactly a memoisation of these eight steps).
* Errors: `eof` is `io.EOF`, `unexpectedEOF` is `io.ErrUnexpectedEOF`
  (returned by `binary.Read`/`io.ReadFull` on a partial field),
  `corruption` is the `"data corruption detected"` error, `closed` is the
  `os.ErrInvalid` every `*os.File` method returns on a nil handle, and
  `decodeFail` is a `gob` decoder error.
-/

namespace Wal

/-- Big-endian value of a byte list: `binary.BigEndian` decoding. -/
def beVal : List Nat → Nat
  | [] => 0
  | d :: rest => d * 256 ^ rest.length + beVal rest

/-- Big-endian encoding of `n` in `k` bytes: `binary.BigEndian` encoding
(`binary.Write` of a `uint64` is `beBytes 8`, of a `uint32` is `beBytes 4`). -/
def beBytes : Nat → Nat → List Nat
  | 0, _ => []
  | k + 1, n => (n / 256 ^ k) % 256 :: beBytes k n

/-- The reversed CRC-32 (IEEE) polynomial used by Go's `hash/crc32`. -/
def crcPoly : Nat := 0xEDB88320

/-- One shift-xor step of the reflected CRC-32 state update. -/
def step0 (s : Nat) : Nat :=
  if s % 2 = 1 then (s / 2) ^^^ crcPoly else s / 2

/-- Fold one input byte into the CRC-32 state: xor the byte into the low
bits, then eight shift-xor steps (Go's `simpleUpdate` loop body). -/
def updateByte (s b : Nat) : Nat :=
  step0 (step0 (step0 (step0 (step0 (step0 (step0 (step0 (s ^^^ b))))))))

/-- `crc32.ChecksumIEEE`: process all bytes starting from `0xFFFFFFFF`,
then xor the final state with `0xFFFFFFFF`. -/
def crc32 (data : List Nat) : Nat :=
  (data.foldl updateByte 0xFFFFFFFF) ^^^ 0xFFFFFFFF

/-- The error kinds surfaced by the log and WAL layers. -/
inductive LogErr where
  | eof
  | unexpectedEOF
  | corruption
  | closed
  | decodeFail
deriving DecidableEq, Repr

/-- The on-disk frame written for one record by `FileLog.Append`:
8-byte big-endian length, the payload, 4-byte big-endian CRC-32. -/
def frameOf (record : List Nat) : List Nat :=
  beBytes 8 record.length ++ record ++ beBytes 4 (crc32 record)

/-- The body of `FileLog.Read` on an open file `f`: seek to `offset` (Go
permits seeking past end-of-file), `binary.Read` an 8-byte length,
`io.ReadFull` the payload, `binary.Read` a 4-byte checksum, verify the
CRC-32.  Each of the three reads returns `io.EOF` when no byte is
available and `io.ErrUnexpectedEOF` when only part of the field is. -/
def readAt (f : List Nat) (offset : Nat) : Except LogErr (List Nat × Nat) :=
  let rest := f.drop offset
  if rest.length < 8 then
    .error (if rest.length = 0 then .eof else .unexpectedEOF)
  else
    let lenRecord := beVal (rest.take 8)
    let rest2 := rest.drop 8
    if rest2.length < lenRecord then
      .error (if rest2.length = 0 then .eof else .unexpectedEOF)
    else
      let record := rest2.take lenRecord
      let rest3 := rest2.drop lenRecord
      if rest3.length < 4 then
        .error (if rest3.length = 0 then .eof else .unexpectedEOF)
      else
        let checksum := beVal (rest3.take 4)
        if crc32 record = checksum then
          .ok (record, offset + 8 + lenRecord + 4)
        else
          .error .corruption

/-- `FileLog`: an open handle on the backing bytes, or `none` once closed
(`fl.file = nil`). -/
structure FileLog where
  file : Option (List Nat)
deriving DecidableEq

/-- `FileLog.Append`: seek to end (the returned offset is the current file
length), write length, payload and checksum.  On a closed log the `Seek`
call on the nil handle fails. -/
def FileLog.Append (fl : FileLog) (record : List Nat) : Except LogErr (FileLog × Nat) :=
  match fl.file with
  | none => .error .closed
  | some f => .ok (⟨some (f ++ frameOf record)⟩, f.length)

/-- `FileLog.Read`: fails on a closed log, otherwise reads the frame at
`offset`. -/
def FileLog.Read (fl : FileLog) (offset : Nat) : Except LogErr (List Nat × Nat) :=
  match fl.file with
  | none => .error .closed
  | some f => readAt f offset

/-- `FileLog.Close`: closes the handle and nils it out; a second close
finds the nil handle and is a no-op.  Both return success. -/
def FileLog.Close (fl : FileLog) : Except LogErr FileLog :=
  match fl.file with
  | none => .ok ⟨none⟩
  | some _ => .ok ⟨none⟩

/-- `PUT` operation tag (Go constant `PUT = 0`). -/
def PUT : Nat := 0

/-- `DELETE` operation tag (Go constant `DELETE = 1`). -/
def DELETE : Nat := 1

/-- The `WriteOperation` struct of `wal.go`. -/
structure WriteOperation where
  WriteOperationType : Nat
  Key : List Nat
  Value : List Nat
deriving DecidableEq, Repr

/-- Modelled from the spec: the Go source serialises a `WriteOperation`
with `encoding/gob`, which is outside this repository.  The spec requires
only that the encoding carry the PUT/DELETE discriminant, preserve key and
value byte sequences exactly, and be self-delimiting within one record.
This codec realises those requirements: one tag byte, then the key and the
value each prefixed by an 8-byte big-endian length. -/
def encodeOp (op : WriteOperation) : List Nat :=
  op.WriteOperationType % 256 ::
    (beBytes 8 op.Key.length ++ op.Key ++ beBytes 8 op.Value.length ++ op.Value)

/-- Modelled from the spec: the decoder matching `encodeOp`; returns `none`
(a gob decode error) when the payload is not a complete encoded operation. -/
def decodeOp (p : List Nat) : Option WriteOperation :=
  match p with
  | [] => none
  | t :: rest =>
    if rest.length < 8 then none
    else
      let kLen := beVal (rest.take 8)
      let r2 := rest.drop 8
      if r2.length < kLen then none
      else
        let key := r2.take kLen
        let r3 := r2.drop kLen
        if r3.length < 8 then none
        else
          let vLen := beVal (r3.take 8)
          let r4 := r3.drop 8
          if r4.length = vLen then some ⟨t, key, r4⟩ else none

/-- The WAL's in-memory map: Go's `map[string][]byte`, keyed by the exact
bytes of the key. -/
abbrev KVMap := List Nat → Option (List Nat)

/-- The freshly-initialised empty map of `readAllLogEntries`. -/
def emptyMap : KVMap := fun _ => none

/-- The `switch op.WriteOperationType` of `readAllLogEntries`: `PUT`
inserts, `DELETE` removes, and any other tag falls through the switch,
leaving the map unchanged. -/
def applyOp (data : KVMap) (op : WriteOperation) : KVMap :=
  if op.WriteOperationType = PUT then
    fun k => if k = op.Key then some op.Value else data k
  else if op.WriteOperationType = DELETE then
    fun k => if k = op.Key then none else data k
  else data

/-- A successful `readAt` consumed a whole frame: the next offset is
strictly larger and still within the file. -/
theorem readAt_ok_bounds {f : List Nat} {o : Nat} {r : List Nat} {n : Nat}
    (h : readAt f o = .ok (r, n)) : o < n ∧ n ≤ f.length := by
  unfold readAt at h
  simp only [List.length_drop, List.length_take] at h
  split at h
  · split at h <;> simp at h
  · split at h
    · split at h <;> simp at h
    · split at h
      · split at h <;> simp at h
      · split at h
        · simp only [Except.ok.injEq, Prod.mk.injEq] at h
          omega
        · simp at h

/-- The replay loop of `readAllLogEntries`: read records starting at
`offset`, decode each as a `WriteOperation`, apply it to the map; stop
cleanly on `io.EOF`, abort on any other read error or a decode error. -/
def readAllAux (f : List Nat) (offset : Nat) (data : KVMap) : Except LogErr KVMap :=
  match h : readAt f offset with
  | .error e => if e = LogErr.eof then .ok data else .error e
  | .ok (record, nextOffset) =>
    match decodeOp record with
    | none => .error .decodeFail
    | some op => readAllAux f nextOffset (applyOp data op)
termination_by f.length - offset
decreasing_by
  have := readAt_ok_bounds h
  omega

/-- `readAllLogEntries`: replay the whole log from offset 0 into a fresh
map.  On a closed log the first `Read` fails with the closed-handle error,
which is not `io.EOF`, so construction fails. -/
def readAllLogEntries (log : FileLog) : Except LogErr KVMap :=
  match log.file with
  | none => .error .closed
  | some f => readAllAux f 0 emptyMap

/-- The `WriteAheadLog` struct: the underlying `FileLog` and the in-memory
map. -/
structure WriteAheadLog where
  log : FileLog
  data : KVMap

/-- `NewWriteAheadLogWithFileLog`: replay the log; any replay error aborts
construction. -/
def NewWriteAheadLogWithFileLog (log : FileLog) : Except LogErr WriteAheadLog :=
  match readAllLogEntries log with
  | .error e => .error e
  | .ok data => .ok ⟨log, data⟩

/-- `WriteAheadLog.Get`: a pure in-memory lookup; the Go body is
`return wal.data[string(key)], nil`, so the error is always nil. -/
def WriteAheadLog.Get (wal : WriteAheadLog) (key : List Nat) : Except LogErr (Option (List Nat)) :=
  .ok (wal.data key)

/-- `WriteAheadLog.Put`: encode a PUT operation, append it, and only on a
successful append insert the pair into the map. -/
def WriteAheadLog.Put (wal : WriteAheadLog) (key value : List Nat) : Except LogErr WriteAheadLog :=
  match wal.log.Append (encodeOp ⟨PUT, key, value⟩) with
  | .error e => .error e
  | .ok (log2, _) => .ok ⟨log2, fun k => if k = key then some value else wal.data k⟩

/-- `WriteAheadLog.Delete`: encode a DELETE operation (its `Value` field is
the zero value), append it, and only on a successful append remove the key
from the map. -/
def WriteAheadLog.Delete (wal : WriteAheadLog) (key : List Nat) : Except LogErr WriteAheadLog :=
  match wal.log.Append (encodeOp ⟨DELETE, key, []⟩) with
  | .error e => .error e
  | .ok (log2, _) => .ok ⟨log2, fun k => if k = key then none else wal.data k⟩

/-- A client command against the public WAL interface. -/
inductive Cmd where
  | put (key value : List Nat)
  | del (key : List Nat)
deriving DecidableEq, Repr

/-- The key a command operates on. -/
def Cmd.key : Cmd → List Nat
  | .put k _ => k
  | .del k => k

/-- The value a command stores (`[]` for a delete, mirroring the zero
value Go serialises for `DELETE`). -/
def Cmd.value : Cmd → List Nat
  | .put _ v => v
  | .del _ => []

/-- The `WriteOperation` the WAL serialises for a command. -/
def Cmd.op : Cmd → WriteOperation
  | .put k v => ⟨PUT, k, v⟩
  | .del k => ⟨DELETE, k, []⟩

/-- For a put, its value; used to read off the result of the most recent
relevant command. -/
def Cmd.putValue : Cmd → Option (List Nat)
  | .put _ v => some v
  | .del _ => none

/-- All entries are bytes. -/
abbrev byteList (l : List Nat) : Prop := ∀ b ∈ l, b < 256

/-- A command whose key and value are realisable Go byte slices. -/
abbrev Cmd.valid (c : Cmd) : Prop :=
  byteList c.key ∧ byteList c.value ∧ c.key.length < 2 ^ 32 ∧ c.value.length < 2 ^ 32

/-- Run a list of commands through the public `Put`/`Delete` interface. -/
def runCmds : List Cmd → WriteAheadLog → Except LogErr WriteAheadLog
  | [], w => .ok w
  | .put k v :: cs, w =>
    match w.Put k v with
    | .error e => .error e
    | .ok w2 => runCmds cs w2
  | .del k :: cs, w =>
    match w.Delete k with
    | .error e => .error e
    | .ok w2 => runCmds cs w2

/-- A WAL freshly created on an initially empty file. -/
def freshWal : WriteAheadLog := ⟨⟨some []⟩, emptyMap⟩

/-- The map update a command performs. -/
def applyCmd (m : KVMap) : Cmd → KVMap
  | .put k v => fun k2 => if k2 = k then some v else m k2
  | .del k => fun k2 => if k2 = k then none else m k2

/-- Spec-side meaning of `Get`: the value of the most recent `Put` to the
key that is not followed by a later `Delete` of it; absent when the key was
never put or its latest operation was a delete. -/
def specGet (cmds : List Cmd) (k : List Nat) : Option (List Nat) :=
  match (cmds.filter (fun c => c.key == k)).getLast? with
  | some c => c.putValue
  | none => none

/-- Concatenation of the frames for a list of record payloads: the file
contents produced by appending those records in order to an empty log. -/
def framesOf : List (List Nat) → List Nat
  | [] => []
  | p :: ps => frameOf p ++ framesOf ps

/-- The effect of replaying one record payload: decode and apply (replay
aborts rather than reaching the apply step when decoding fails, so the
`none` branch is arbitrary here). -/
def applyPayload (d : KVMap) (p : List Nat) : KVMap :=
  match decodeOp p with
  | some op => applyOp d op
  | none => d

/-- Run commands on a fresh WAL, reopen a WAL from the resulting file
contents, and `Get` a key from the reopened WAL. -/
def reopenGet (cmds : List Cmd) (k : List Nat) : Except LogErr (Option (List Nat)) :=
  match runCmds cmds freshWal with
  | .error e => .error e
  | .ok w =>
    match NewWriteAheadLogWithFileLog w.log with
    | .error e => .error e
    | .ok w2 => w2.Get k

/-- Spec-side description of a well-formed frame: at offset `o` of file
`f` there is an 8-byte big-endian length equal to `r.length`, the payload
`r`, and a 4-byte big-endian checksum equal to `CRC32-IEEE(r)`; `n` is the
offset just past the frame. -/
def ValidFrameAt (f : List Nat) (o : Nat) (r : List Nat) (n : Nat) : Prop :=
  o + 8 + r.length + 4 ≤ f.length ∧
  beVal ((f.drop o).take 8) = r.length ∧
  ((f.drop o).drop 8).take r.length = r ∧
  beVal ((((f.drop o).drop 8).drop r.length).take 4) = crc32 r ∧
  n = o + 8 + r.length + 4

/-- Flip bit `i` of the byte at position `j`. -/
def flipBit (l : List Nat) (j i : Nat) : List Nat :=
  l.set j ((l.getD j 0) ^^^ 2 ^ i)

/-! ## Big-endian encoding lemmas -/

theorem beBytes_length (k n : Nat) : (beBytes k n).length = k := by
  induction k generalizing n with
  | zero => rfl
  | succ k ih => simp [beBytes, ih]

theorem beBytes_byteList (k n : Nat) : byteList (beBytes k n) := by
  induction k generalizing n with
  | zero => intro b hb; simp [beBytes] at hb
  | succ k ih =>
    intro b hb
    simp only [beBytes, List.mem_cons] at hb
    rcases hb with h | h
    · subst h; exact Nat.mod_lt _ (by norm_num)
    · exact ih n b h

theorem beVal_beBytes (k n : Nat) : beVal (beBytes k n) = n % 256 ^ k := by
  induction k generalizing n with
  | zero => simp [beBytes, beVal, Nat.mod_one]
  | succ k ih =>
    simp only [beBytes, beVal, beBytes_length, ih]
    rw [Nat.pow_succ, Nat.mod_mul]
    ring

theorem beVal_append (a l : List Nat) :
    beVal (a ++ l) = beVal a * 256 ^ l.length + beVal l := by
  induction a with
  | nil => simp [beVal]
  | cons d a ih =>
    simp only [List.cons_append, beVal, List.append_eq, List.length_append, ih]
    rw [Nat.pow_add]
    ring

theorem frameOf_length (r : List Nat) : (frameOf r).length = 8 + r.length + 4 := by
  simp [frameOf, beBytes_length]
  omega

theorem beVal_middle (a t : List Nat) (x : Nat) :
    beVal (a ++ x :: t) = (beVal a * 256 + x) * 256 ^ t.length + beVal t := by
  rw [beVal_append]
  simp only [beVal, List.length_cons]
  rw [Nat.pow_succ]
  ring

theorem beVal_set_ne {l : List Nat} {j b : Nat} (hj : j < l.length) (hne : b ≠ l[j]) :
    beVal (l.set j b) ≠ beVal l := by
  intro h
  apply hne
  have hr : l = l.take j ++ l[j] :: l.drop (j + 1) := by
    conv_lhs => rw [← List.take_append_drop j l]
    rw [List.getElem_cons_drop]
  rw [List.set_eq_take_append_cons_drop, if_pos hj] at h
  have h2 := h.trans (congrArg beVal hr)
  rw [beVal_middle, beVal_middle] at h2
  have h3 := Nat.add_right_cancel h2
  have h4 := Nat.eq_of_mul_eq_mul_right (Nat.pow_pos (by norm_num)) h3
  omega

/-! ## CRC-32 lemmas -/

theorem xor_right_cancel {a b c : Nat} (h : a ^^^ c = b ^^^ c) : a = b := by
  have h2 := congrArg (· ^^^ c) h
  simpa [Nat.xor_assoc] using h2

theorem xor_left_cancel {a b c : Nat} (h : a ^^^ b = a ^^^ c) : b = c := by
  have h2 := congrArg (a ^^^ ·) h
  simpa [← Nat.xor_assoc] using h2

theorem step0_lt {s : Nat} (h : s < 2 ^ 32) : step0 s < 2 ^ 32 := by
  unfold step0
  have h2 : s / 2 < 2 ^ 32 := lt_of_le_of_lt (Nat.div_le_self s 2) h
  split
  · exact Nat.xor_lt_two_pow h2 (by norm_num [crcPoly])
  · exact h2

theorem step0_inj {s1 s2 : Nat} (h1 : s1 < 2 ^ 32) (h2 : s2 < 2 ^ 32)
    (h : step0 s1 = step0 s2) : s1 = s2 := by
  have d1 : s1 / 2 < 2 ^ 31 := by omega
  have d2 : s2 / 2 < 2 ^ 31 := by omega
  have hp : crcPoly.testBit 31 = true := by decide
  unfold step0 at h
  by_cases p1 : s1 % 2 = 1 <;> by_cases p2 : s2 % 2 = 1
  · rw [if_pos p1, if_pos p2] at h
    have := xor_right_cancel h
    omega
  · rw [if_pos p1, if_neg p2] at h
    exfalso
    have hb := congrArg (Nat.testBit · 31) h
    simp only [Nat.testBit_xor, Nat.testBit_lt_two_pow d1, Nat.testBit_lt_two_pow d2, hp] at hb
    simp at hb
  · rw [if_neg p1, if_pos p2] at h
    exfalso
    have hb := congrArg (Nat.testBit · 31) h
    simp only [Nat.testBit_xor, Nat.testBit_lt_two_pow d1, Nat.testBit_lt_two_pow d2, hp] at hb
    simp at hb
  · rw [if_neg p1, if_neg p2] at h
    omega

theorem updateByte_lt {s b : Nat} (hs : s < 2 ^ 32) (hb : b < 256) :
    updateByte s b < 2 ^ 32 := by
  unfold updateByte
  have h0 : s ^^^ b < 2 ^ 32 := Nat.xor_lt_two_pow hs (by omega)
  exact step0_lt (step0_lt (step0_lt (step0_lt (step0_lt (step0_lt (step0_lt (step0_lt h0)))))))

theorem updateByte_inj {s1 s2 b : Nat} (h1 : s1 < 2 ^ 32) (h2 : s2 < 2 ^ 32) (hb : b < 256)
    (h : updateByte s1 b = updateByte s2 b) : s1 = s2 := by
  have hb32 : b < 2 ^ 32 := by omega
  have e1 : s1 ^^^ b < 2 ^ 32 := Nat.xor_lt_two_pow h1 hb32
  have e2 : s2 ^^^ b < 2 ^ 32 := Nat.xor_lt_two_pow h2 hb32
  unfold updateByte at h
  replace h := step0_inj (step0_lt (step0_lt (step0_lt (step0_lt (step0_lt (step0_lt (step0_lt e1)))))))
    (step0_lt (step0_lt (step0_lt (step0_lt (step0_lt (step0_lt (step0_lt e2))))))) h
  replace h := step0_inj (step0_lt (step0_lt (step0_lt (step0_lt (step0_lt (step0_lt e1))))))
    (step0_lt (step0_lt (step0_lt (step0_lt (step0_lt (step0_lt e2)))))) h
  replace h := step0_inj (step0_lt (step0_lt (step0_lt (step0_lt (step0_lt e1)))))
    (step0_lt (step0_lt (step0_lt (step0_lt (step0_lt e2))))) h
  replace h := step0_inj (step0_lt (step0_lt (step0_lt (step0_lt e1))))
    (step0_lt (step0_lt (step0_lt (step0_lt e2)))) h
  replace h := step0_inj (step0_lt (step0_lt (step0_lt e1)))
    (step0_lt (step0_lt (step0_lt e2))) h
  replace h := step0_inj (step0_lt (step0_lt e1)) (step0_lt (step0_lt e2)) h
  replace h := step0_inj (step0_lt e1) (step0_lt e2) h
  replace h := step0_inj e1 e2 h
  exact xor_right_cancel h

theorem updateByte_ne {s b1 b2 : Nat} (hs : s < 2 ^ 32) (hb1 : b1 < 256) (hb2 : b2 < 256)
    (hne : b1 ≠ b2) : updateByte s b1 ≠ updateByte s b2 := by
  intro h
  apply hne
  have e1 : s ^^^ b1 < 2 ^ 32 := Nat.xor_lt_two_pow hs (by omega)
  have e2 : s ^^^ b2 < 2 ^ 32 := Nat.xor_lt_two_pow hs (by omega)
  unfold updateByte at h
  replace h := step0_inj (step0_lt (step0_lt (step0_lt (step0_lt (step0_lt (step0_lt (step0_lt e1)))))))
    (step0_lt (step0_lt (step0_lt (step0_lt (step0_lt (step0_lt (step0_lt e2))))))) h
  replace h := step0_inj (step0_lt (step0_lt (step0_lt (step0_lt (step0_lt (step0_lt e1))))))
    (step0_lt (step0_lt (step0_lt (step0_lt (step0_lt (step0_lt e2)))))) h
  replace h := step0_inj (step0_lt (step0_lt (step0_lt (step0_lt (step0_lt e1)))))
    (step0_lt (step0_lt (step0_lt (step0_lt (step0_lt e2))))) h
  replace h := step0_inj (step0_lt (step0_lt (step0_lt (step0_lt e1))))
    (step0_lt (step0_lt (step0_lt (step0_lt e2)))) h
  replace h := step0_inj (step0_lt (step0_lt (step0_lt e1)))
    (step0_lt (step0_lt (step0_lt e2))) h
  replace h := step0_inj (step0_lt (step0_lt e1)) (step0_lt (step0_lt e2)) h
  replace h := step0_inj (step0_lt e1) (step0_lt e2) h
  replace h := step0_inj e1 e2 h
  exact xor_left_cancel h

theorem foldl_updateByte_lt :
    ∀ (t : List Nat) (s : Nat), byteList t → s < 2 ^ 32 → t.foldl updateByte s < 2 ^ 32 := by
  intro t
  induction t with
  | nil => intro s _ hs; simpa using hs
  | cons b t ih =>
    intro s ht hs
    rw [List.foldl_cons]
    exact ih _ (fun x hx => ht x (List.mem_cons_of_mem b hx)) <|
      updateByte_lt hs (ht b (List.mem_cons_self b t))

theorem foldl_updateByte_ne :
    ∀ (t : List Nat) (s1 s2 : Nat), byteList t → s1 < 2 ^ 32 → s2 < 2 ^ 32 → s1 ≠ s2 →
      t.foldl updateByte s1 ≠ t.foldl updateByte s2 := by
  intro t
  induction t with
  | nil => intro s1 s2 _ _ _ hne; simpa using hne
  | cons b t ih =>
    intro s1 s2 ht h1 h2 hne
    rw [List.foldl_cons, List.foldl_cons]
    have hb : b < 256 := ht b (List.mem_cons_self b t)
    have ht2 : byteList t := fun x hx => ht x (List.mem_cons_of_mem b hx)
    refine ih _ _ ht2 (updateByte_lt h1 hb) (updateByte_lt h2 hb) ?_
    intro h
    exact hne (updateByte_inj h1 h2 hb h)

theorem crc32_lt {data : List Nat} (h : byteList data) : crc32 data < 2 ^ 32 := by
  unfold crc32
  exact Nat.xor_lt_two_pow (foldl_updateByte_lt data _ h (by norm_num)) (by norm_num)

theorem crc32_flip_ne {p t : List Nat} {b1 b2 : Nat} (hp : byteList p) (ht : byteList t)
    (hb1 : b1 < 256) (hb2 : b2 < 256) (hne : b1 ≠ b2) :
    crc32 (p ++ b1 :: t) ≠ crc32 (p ++ b2 :: t) := by
  unfold crc32
  intro h
  have h2 := xor_right_cancel h
  rw [List.foldl_append, List.foldl_append, List.foldl_cons, List.foldl_cons] at h2
  have hslt : p.foldl updateByte 0xFFFFFFFF < 2 ^ 32 :=
    foldl_updateByte_lt p _ hp (by norm_num)
  exact foldl_updateByte_ne t _ _ ht (updateByte_lt hslt hb1) (updateByte_lt hslt hb2)
    (updateByte_ne hslt hb1 hb2 hne) h2

theorem crc32_flipBit_ne {r : List Nat} {j i : Nat} (hb : byteList r) (hj : j < r.length)
    (hi : i < 8) : crc32 (flipBit r j i) ≠ crc32 r := by
  have hbj : r[j] < 256 := hb _ (List.getElem_mem hj)
  have h2i : (2 : Nat) ^ i < 256 := by
    calc (2 : Nat) ^ i < 2 ^ 8 := Nat.pow_lt_pow_right (by norm_num) hi
    _ = 256 := by norm_num
  have hflip : r[j] ^^^ 2 ^ i < 256 := by
    have h8 : (256 : Nat) = 2 ^ 8 := by norm_num
    rw [h8] at hbj h2i ⊢
    exact Nat.xor_lt_two_pow hbj h2i
  have hgd : r.getD j 0 = r[j] := by
    simp [List.getD_eq_getElem?_getD, List.getElem?_eq_getElem hj]
  have hner : r[j] ^^^ 2 ^ i ≠ r[j] := by
    intro h
    have h2 := congrArg (r[j] ^^^ ·) h
    simp only [← Nat.xor_assoc, Nat.xor_self, Nat.zero_xor] at h2
    have : (0 : Nat) < 2 ^ i := Nat.pos_pow_of_pos i (by norm_num)
    omega
  have hr : r = r.take j ++ r[j] :: r.drop (j + 1) := by
    conv_lhs => rw [← List.take_append_drop j r]
    rw [List.getElem_cons_drop]
  have key := crc32_flip_ne (p := r.take j) (t := r.drop (j + 1))
    (fun x hx => hb x (List.take_subset j r hx))
    (fun x hx => hb x (List.drop_subset (j + 1) r hx))
    hflip hbj hner
  rw [flipBit, hgd, List.set_eq_take_append_cons_drop, if_pos hj]
  rw [← hr] at key
  exact key

/-! ## Read and replay lemmas -/

theorem readAt_out {g : List Nat} {o : Nat} (h : g.length ≤ o) :
    readAt g o = .error .eof := by
  simp [readAt, List.drop_eq_nil_of_le h]

theorem readAt_frame {r : List Nat} (g : List Nat) (hb : byteList r)
    (hlen : r.length < 2 ^ 64) :
    readAt (frameOf r ++ g) 0 = .ok (r, 8 + r.length + 4) := by
  have hassoc : frameOf r ++ g =
      beBytes 8 r.length ++ (r ++ (beBytes 4 (crc32 r) ++ g)) := by
    simp [frameOf, List.append_assoc]
  have h8 : (beBytes 8 r.length).length = 8 := beBytes_length ..
  have hcl : (beBytes 4 (crc32 r)).length = 4 := beBytes_length ..
  have hmod : r.length % 256 ^ 8 = r.length := by
    apply Nat.mod_eq_of_lt
    calc r.length < 2 ^ 64 := hlen
    _ = 256 ^ 8 := by norm_num
  have hmod2 : crc32 r % 256 ^ 4 = crc32 r := by
    apply Nat.mod_eq_of_lt
    calc crc32 r < 2 ^ 32 := crc32_lt hb
    _ = 256 ^ 4 := by norm_num
  rw [hassoc]
  simp only [readAt, List.drop_zero, List.take_left' h8, List.drop_left' h8,
    beVal_beBytes, hmod, hmod2, List.take_left, List.drop_left,
    List.take_left' hcl, List.length_append, h8, hcl]
  rw [if_neg (by omega), if_neg (by omega), if_neg (by omega)]
  simp

theorem readAt_shift (a g : List Nat) (o : Nat) :
    readAt (a ++ g) (a.length + o) =
      match readAt g o with
      | .ok (r, n) => .ok (r, a.length + n)
      | .error e => .error e := by
  have hd : (a ++ g).drop (a.length + o) = g.drop o := by
    rw [← List.drop_drop, List.drop_left]
  simp only [readAt, hd]
  by_cases h1 : (g.drop o).length < 8
  · rw [if_pos h1, if_pos h1]
  · rw [if_neg h1, if_neg h1]
    by_cases h2 : ((g.drop o).drop 8).length < beVal ((g.drop o).take 8)
    · rw [if_pos h2, if_pos h2]
    · rw [if_neg h2, if_neg h2]
      by_cases h3 : (((g.drop o).drop 8).drop (beVal ((g.drop o).take 8))).length < 4
      · rw [if_pos h3, if_pos h3]
      · rw [if_neg h3, if_neg h3]
        by_cases h4 : crc32 (((g.drop o).drop 8).take (beVal ((g.drop o).take 8))) =
            beVal (((((g.drop o).drop 8).drop (beVal ((g.drop o).take 8)))).take 4)
        · rw [if_pos h4, if_pos h4]
          have harith : a.length + o + 8 + beVal ((g.drop o).take 8) + 4 =
              a.length + (o + 8 + beVal ((g.drop o).take 8) + 4) := by omega
          rw [harith]
        · rw [if_neg h4, if_neg h4]

theorem readAllAux_error {f : List Nat} {o : Nat} {d : KVMap} {e : LogErr}
    (h : readAt f o = .error e) :
    readAllAux f o d = if e = LogErr.eof then .ok d else .error e := by
  rw [readAllAux]
  rw [h]

theorem readAllAux_step {f : List Nat} {o : Nat} {d : KVMap} {r : List Nat} {n : Nat}
    (h : readAt f o = .ok (r, n)) :
    readAllAux f o d =
      match decodeOp r with
      | none => .error .decodeFail
      | some op => readAllAux f n (applyOp d op) := by
  rw [readAllAux]
  rw [h]

theorem readAllAux_shift (a g : List Nat) :
    ∀ (k o : Nat), g.length - o ≤ k → ∀ d,
      readAllAux (a ++ g) (a.length + o) d = readAllAux g o d := by
  intro k
  induction k with
  | zero =>
    intro o hk d
    have ho : g.length ≤ o := by omega
    have h1 : readAt g o = .error .eof := readAt_out ho
    have h2 : readAt (a ++ g) (a.length + o) = .error .eof := by
      rw [readAt_shift, h1]
    rw [readAllAux_error h1, readAllAux_error h2]
  | succ k ih =>
    intro o hk d
    match hr : readAt g o with
    | .error e =>
      have h2 : readAt (a ++ g) (a.length + o) = .error e := by
        rw [readAt_shift, hr]
      rw [readAllAux_error hr, readAllAux_error h2]
    | .ok (r, n) =>
      have h2 : readAt (a ++ g) (a.length + o) = .ok (r, a.length + n) := by
        rw [readAt_shift, hr]
      have hb := readAt_ok_bounds hr
      rw [readAllAux_step hr, readAllAux_step h2]
      cases decodeOp r with
      | none => rfl
      | some op => exact ih n (by omega) (applyOp d op)

/-! ## Codec lemmas -/

theorem encodeOp_byteList {op : WriteOperation} (hk : byteList op.Key) (hv : byteList op.Value) :
    byteList (encodeOp op) := by
  intro b hb
  simp only [encodeOp, List.mem_cons, List.mem_append] at hb
  rcases hb with h | (((h | h) | h) | h)
  · subst h; exact Nat.mod_lt _ (by norm_num)
  · exact beBytes_byteList _ _ b h
  · exact hk b h
  · exact beBytes_byteList _ _ b h
  · exact hv b h

theorem encodeOp_length (op : WriteOperation) :
    (encodeOp op).length = 17 + op.Key.length + op.Value.length := by
  simp [encodeOp, beBytes_length]
  omega

theorem decodeOp_encodeOp {op : WriteOperation} (ht : op.WriteOperationType < 256)
    (hk : op.Key.length < 2 ^ 64) (hv : op.Value.length < 2 ^ 64) :
    decodeOp (encodeOp op) = some op := by
  obtain ⟨t, k, v⟩ := op
  simp only at ht hk hv
  have hassoc : beBytes 8 k.length ++ k ++ beBytes 8 v.length ++ v =
      beBytes 8 k.length ++ (k ++ (beBytes 8 v.length ++ v)) := by
    simp [List.append_assoc]
  have h8k : (beBytes 8 k.length).length = 8 := beBytes_length ..
  have h8v : (beBytes 8 v.length).length = 8 := beBytes_length ..
  have hmk : k.length % 256 ^ 8 = k.length := by
    apply Nat.mod_eq_of_lt
    calc k.length < 2 ^ 64 := hk
    _ = 256 ^ 8 := by norm_num
  have hmv : v.length % 256 ^ 8 = v.length := by
    apply Nat.mod_eq_of_lt
    calc v.length < 2 ^ 64 := hv
    _ = 256 ^ 8 := by norm_num
  simp only [encodeOp, hassoc]
  simp only [decodeOp, List.take_left' h8k, List.drop_left' h8k, beVal_beBytes, hmk, hmv,
    List.take_left, List.drop_left, List.take_left' h8v, List.drop_left' h8v,
    List.length_append, h8k, h8v]
  rw [if_neg (by omega), if_neg (by omega), if_neg (by omega)]
  simp [Nat.mod_eq_of_lt ht]

theorem cmd_op_type_lt (c : Cmd) : c.op.WriteOperationType < 256 := by
  cases c <;> simp [Cmd.op, PUT, DELETE]

theorem encoded_good {c : Cmd} (h : c.valid) :
    byteList (encodeOp c.op) ∧ (encodeOp c.op).length < 2 ^ 64 ∧
      (decodeOp (encodeOp c.op)).isSome := by
  obtain ⟨hbk, hbv, hlk, hlv⟩ := h
  have hkk : c.op.Key = c.key := by cases c <;> rfl
  have hvv : c.op.Value = c.value := by cases c <;> rfl
  refine ⟨encodeOp_byteList (by rw [hkk]; exact hbk) (by rw [hvv]; exact hbv), ?_, ?_⟩
  · rw [encodeOp_length, hkk, hvv]
    omega
  · rw [decodeOp_encodeOp (cmd_op_type_lt c) (by rw [hkk]; omega) (by rw [hvv]; omega)]
    rfl

theorem applyPayload_encode {c : Cmd} (d : KVMap) (hv : c.valid) :
    applyPayload d (encodeOp c.op) = applyCmd d c := by
  obtain ⟨hbk, hbv, hlk, hlv⟩ := hv
  have hkk : c.op.Key = c.key := by cases c <;> rfl
  have hvv : c.op.Value = c.value := by cases c <;> rfl
  have hdec := decodeOp_encodeOp (cmd_op_type_lt c) (by rw [hkk]; omega) (by rw [hvv]; omega)
  rw [applyPayload, hdec]
  cases c with
  | put k v => simp [applyOp, applyCmd, Cmd.op, PUT, DELETE]
  | del k => simp [applyOp, applyCmd, Cmd.op, PUT, DELETE]

/-! ## Replay and run lemmas -/

theorem readAllAux_framesOf :
    ∀ (ps : List (List Nat)) (d : KVMap),
      (∀ p ∈ ps, byteList p ∧ p.length < 2 ^ 64 ∧ (decodeOp p).isSome) →
      readAllAux (framesOf ps) 0 d = .ok (ps.foldl applyPayload d) := by
  intro ps
  induction ps with
  | nil =>
    intro d _
    have h0 : readAt ([] : List Nat) 0 = .error .eof := readAt_out (by simp)
    rw [framesOf, readAllAux_error h0]
    simp
  | cons p ps ih =>
    intro d hps
    obtain ⟨hb, hlen, hdec⟩ := hps p (List.mem_cons_self ..)
    rw [framesOf]
    rw [readAllAux_step (readAt_frame (framesOf ps) hb hlen)]
    obtain ⟨op, hop⟩ := Option.isSome_iff_exists.mp hdec
    rw [hop]
    show readAllAux (frameOf p ++ framesOf ps) (8 + p.length + 4) (applyOp d op) =
      Except.ok ((p :: ps).foldl applyPayload d)
    have hlenf : 8 + p.length + 4 = (frameOf p).length + 0 := by
      rw [frameOf_length]
    rw [hlenf,
      readAllAux_shift (frameOf p) (framesOf ps) (framesOf ps).length 0 (by omega) _]
    rw [ih _ fun q hq => hps q (List.mem_cons_of_mem p hq)]
    simp [applyPayload, hop]

theorem runCmds_formula :
    ∀ (cmds : List Cmd) (f : List Nat) (m : KVMap),
      runCmds cmds ⟨⟨some f⟩, m⟩ =
        .ok ⟨⟨some (f ++ framesOf (cmds.map fun c => encodeOp c.op))⟩,
          cmds.foldl applyCmd m⟩ := by
  intro cmds
  induction cmds with
  | nil => intro f m; simp [runCmds, framesOf]
  | cons c cs ih =>
    intro f m
    cases c with
    | put k v =>
      simp only [runCmds, WriteAheadLog.Put, FileLog.Append]
      rw [ih]
      simp only [List.map_cons, framesOf, List.foldl_cons, Cmd.op, applyCmd,
        List.append_assoc]
    | del k =>
      simp only [runCmds, WriteAheadLog.Delete, FileLog.Append]
      rw [ih]
      simp only [List.map_cons, framesOf, List.foldl_cons, Cmd.op, applyCmd,
        List.append_assoc]

theorem getLast?_cons_eq (a : α) (l : List α) :
    (a :: l).getLast? = some (l.getLast?.getD a) := by
  induction l generalizing a with
  | nil => rfl
  | cons b l ih =>
    rw [List.getLast?_cons_cons, ih b]
    simp

theorem foldl_applyCmd_lookup :
    ∀ (cmds : List Cmd) (m : KVMap) (k : List Nat),
      (cmds.foldl applyCmd m) k =
        match (cmds.filter fun c => c.key == k).getLast? with
        | some c => c.putValue
        | none => m k := by
  intro cmds
  induction cmds with
  | nil => intro m k; rfl
  | cons c cs ih =>
    intro m k
    rw [List.foldl_cons, ih]
    rw [List.filter_cons]
    by_cases hc : c.key = k
    · simp only [hc, beq_self_eq_true, if_true, getLast?_cons_eq]
      cases hfc : (cs.filter fun c => c.key == k).getLast? with
      | some c2 => simp
      | none =>
        simp only [Option.getD_none]
        cases c with
        | put ck v => simp only [applyCmd, Cmd.key] at hc ⊢; rw [if_pos hc.symm]; rfl
        | del ck => simp only [applyCmd, Cmd.key] at hc ⊢; rw [if_pos hc.symm]; rfl
    · have hcb : (c.key == k) = false := by simp [hc]
      simp only [hcb, Bool.false_eq_true, if_false]
      cases hfc : (cs.filter fun c => c.key == k).getLast? with
      | some c2 => rfl
      | none =>
        cases c with
        | put ck v =>
          simp only [applyCmd, Cmd.key] at hc ⊢
          rw [if_neg fun h => hc h.symm]
        | del ck =>
          simp only [applyCmd, Cmd.key] at hc ⊢
          rw [if_neg fun h => hc h.symm]

theorem flip_byte_ne {b : Nat} (i : Nat) : b ^^^ 2 ^ i ≠ b := by
  intro h
  have h2 := congrArg (b ^^^ ·) h
  simp only [← Nat.xor_assoc, Nat.xor_self, Nat.zero_xor] at h2
  have hpos : (0 : Nat) < 2 ^ i := Nat.pos_pow_of_pos i (by norm_num)
  omega

theorem foldl_applyPayload_map :
    ∀ (cmds : List Cmd) (d : KVMap), (∀ c ∈ cmds, c.valid) →
      (cmds.map fun c => encodeOp c.op).foldl applyPayload d = cmds.foldl applyCmd d := by
  intro cmds
  induction cmds with
  | nil => intro d _; rfl
  | cons c cs ih =>
    intro d hv
    simp only [List.map_cons, List.foldl_cons]
    rw [applyPayload_encode d (hv c (List.mem_cons_self ..)),
      ih _ fun x hx => hv x (List.mem_cons_of_mem c hx)]

theorem reopen_core (cmds : List Cmd) (hv : ∀ c ∈ cmds, c.valid) :
    runCmds cmds freshWal =
      .ok ⟨⟨some (framesOf (cmds.map fun c => encodeOp c.op))⟩,
        cmds.foldl applyCmd emptyMap⟩ ∧
    NewWriteAheadLogWithFileLog ⟨some (framesOf (cmds.map fun c => encodeOp c.op))⟩ =
      .ok ⟨⟨some (framesOf (cmds.map fun c => encodeOp c.op))⟩,
        cmds.foldl applyCmd emptyMap⟩ := by
  have hgood : ∀ p ∈ cmds.map fun c => encodeOp c.op,
      byteList p ∧ p.length < 2 ^ 64 ∧ (decodeOp p).isSome := by
    intro p hp
    obtain ⟨c, hc, rfl⟩ := List.mem_map.mp hp
    exact encoded_good (hv c hc)
  constructor
  · unfold freshWal
    rw [runCmds_formula, List.nil_append]
  · have h1 : readAllLogEntries ⟨some (framesOf (cmds.map fun c => encodeOp c.op))⟩ =
        .ok (cmds.foldl applyCmd emptyMap) := by
      show readAllAux _ 0 emptyMap = _
      rw [readAllAux_framesOf _ _ hgood, foldl_applyPayload_map cmds emptyMap hv]
    simp only [NewWriteAheadLogWithFileLog, h1]

/-! ## Claim theorems -/

/-- Claim C1: for every finite sequence of successful Put/Delete operations
applied to a WAL created on an initially empty file, reconstructing the WAL
from the same file bytes (closing only nils the handle and leaves the bytes
intact) yields a store whose `Get` agrees with the original on every key;
moreover, replay applies the log in original order with last-write-wins, so
`Put "K" "A"; Put "K" "B"; Delete "K"; Put "K" "C"` followed by a reopen
yields `Get "K" = "C"` (bytes `75/65/66/67` are the ASCII codes used). -/
theorem wal_reopen_preserves_get (cmds : List Cmd) (hv : ∀ c ∈ cmds, c.valid) :
    (∃ w, runCmds cmds freshWal = .ok w ∧
      ∃ w2, NewWriteAheadLogWithFileLog w.log = .ok w2 ∧
        ∀ k, w2.Get k = w.Get k) ∧
    reopenGet [Cmd.put [75] [65], Cmd.put [75] [66], Cmd.del [75], Cmd.put [75] [67]] [75] =
      .ok (some [67]) := by
  constructor
  · obtain ⟨h1, h2⟩ := reopen_core cmds hv
    exact ⟨_, h1, _, h2, fun k => rfl⟩
  · have hv4 : ∀ c ∈ [Cmd.put [75] [65], Cmd.put [75] [66], Cmd.del [75], Cmd.put [75] [67]],
        c.valid := by decide
    obtain ⟨h1, h2⟩ := reopen_core _ hv4
    simp only [reopenGet, h1, h2, WriteAheadLog.Get]
    rfl

theorem wal_reopen_preserves_get_witness :
    (∀ c ∈ [Cmd.put [1] [2]], c.valid) ∧
    ((∃ w, runCmds [Cmd.put [1] [2]] freshWal = .ok w ∧
      ∃ w2, NewWriteAheadLogWithFileLog w.log = .ok w2 ∧
        ∀ k, w2.Get k = w.Get k) ∧
     reopenGet [Cmd.put [75] [65], Cmd.put [75] [66], Cmd.del [75], Cmd.put [75] [67]] [75] =
       .ok (some [67])) :=
  ⟨by decide, wal_reopen_preserves_get _ (by decide)⟩

/-- Claim C2: `Get` never returns an error (its Go body returns a nil
error unconditionally), and on every state reachable by running commands
through the public interface it returns the value of the most recent put
not followed by a later delete — with the never-put and deleted cases both
yielding the same absent result, indistinguishable to the caller. -/
theorem get_never_errors_last_write_wins :
    (∀ (w : WriteAheadLog) (k : List Nat), w.Get k = .ok (w.data k)) ∧
    (∀ (cmds : List Cmd) (w : WriteAheadLog) (k : List Nat),
      runCmds cmds freshWal = .ok w → w.Get k = .ok (specGet cmds k)) := by
  constructor
  · intro w k; rfl
  · intro cmds w k hrun
    unfold freshWal at hrun
    rw [runCmds_formula cmds [] emptyMap] at hrun
    rw [← Except.ok.inj hrun]
    show Except.ok ((cmds.foldl applyCmd emptyMap) k) = _
    rw [foldl_applyCmd_lookup]
    unfold specGet
    cases h : (cmds.filter fun c => c.key == k).getLast? <;> simp [h, emptyMap]

theorem get_never_errors_last_write_wins_witness :
    runCmds [Cmd.put [1] [2]] freshWal =
      .ok ⟨⟨some ([] ++ frameOf (encodeOp ⟨PUT, [1], [2]⟩))⟩,
        fun k => if k = [1] then some [2] else emptyMap k⟩ ∧
    WriteAheadLog.Get
      ⟨⟨some ([] ++ frameOf (encodeOp ⟨PUT, [1], [2]⟩))⟩,
        fun k => if k = [1] then some [2] else emptyMap k⟩ [1] =
      .ok (specGet [Cmd.put [1] [2]] [1]) :=
  ⟨rfl, get_never_errors_last_write_wins.2 [Cmd.put [1] [2]] _ [1] rfl⟩

/-- Claim C3: on an open log with file contents `f`, `Append r` returns
the pre-append file length as the offset and grows the file by exactly
`8 + len r + 4` bytes, and `Read` at that offset returns `r` together with
`nextOffset = offset + 8 + len r + 4`. -/
theorem append_read_roundtrip (f r : List Nat) (hb : byteList r) (hlen : r.length < 2 ^ 64) :
    FileLog.Append ⟨some f⟩ r = .ok (⟨some (f ++ frameOf r)⟩, f.length) ∧
    (f ++ frameOf r).length = f.length + (8 + r.length + 4) ∧
    FileLog.Read ⟨some (f ++ frameOf r)⟩ f.length = .ok (r, f.length + (8 + r.length + 4)) := by
  refine ⟨rfl, ?_, ?_⟩
  · simp [frameOf_length]
  · have h1 : readAt (frameOf r ++ []) 0 = .ok (r, 8 + r.length + 4) :=
      readAt_frame [] hb hlen
    rw [List.append_nil] at h1
    have h3 := readAt_shift f (frameOf r) 0
    simp only [h1] at h3
    show readAt (f ++ frameOf r) f.length = _
    simpa using h3

theorem append_read_roundtrip_witness :
    byteList [42] ∧ [42].length < 2 ^ 64 ∧
    (FileLog.Append ⟨some []⟩ [42] =
        .ok (⟨some ([] ++ frameOf [42])⟩, ([] : List Nat).length) ∧
      ([] ++ frameOf [42]).length = ([] : List Nat).length + (8 + [42].length + 4) ∧
      FileLog.Read ⟨some ([] ++ frameOf [42])⟩ ([] : List Nat).length =
        .ok ([42], ([] : List Nat).length + (8 + [42].length + 4))) :=
  ⟨by decide, by decide, append_read_roundtrip [] [42] (by decide) (by decide)⟩

/-- Claim C4 counterexample: `Read` does not fail at every offset that is
not a record start.  Appending the single record consisting of twelve zero
bytes to an empty log (so the only record start is offset 0) and then
reading at offset 8 — strictly inside that record's byte range — parses
the first eight payload zeros as a length-0 frame whose stored checksum
(the next four payload zeros) matches `crc32 [] = 0`, so `Read` succeeds
and returns an empty record as if a valid frame started there. -/
theorem read_succeeds_at_unaligned_offset :
    FileLog.Append ⟨some []⟩ (List.replicate 12 0) =
      .ok (⟨some ([] ++ frameOf (List.replicate 12 0))⟩, 0) ∧
    FileLog.Read ⟨some ([] ++ frameOf (List.replicate 12 0))⟩ 8 = .ok ([], 20) := by
  exact ⟨rfl, rfl⟩

/-- Claim C4 (amended): `Read` at an offset fails unless the bytes
beginning there happen to form a complete checksum-valid frame; `Read`
succeeds at exactly those offsets — record start or not — and returns that
frame's payload.  The code never resynchronises, but it also does not
guarantee failure at interior offsets whose bytes imitate a frame. -/
theorem read_ok_iff_valid_frame (f : List Nat) (o : Nat) (r : List Nat) (n : Nat) :
    FileLog.Read ⟨some f⟩ o = .ok (r, n) ↔ ValidFrameAt f o r n := by
  show readAt f o = .ok (r, n) ↔ _
  constructor
  · intro h
    unfold readAt at h
    simp only [List.length_drop] at h
    split at h
    next => simp at h
    next hc1 =>
      split at h
      next => simp at h
      next hc2 =>
        split at h
        next => simp at h
        next hc3 =>
          split at h
          next hcrc =>
            simp only [Except.ok.injEq, Prod.mk.injEq] at h
            obtain ⟨hr, hn⟩ := h
            have hrlen : r.length = beVal ((f.drop o).take 8) := by
              rw [← hr, List.length_take]
              simp only [List.length_drop]
              omega
            refine ⟨?_, hrlen.symm, ?_, ?_, ?_⟩
            · rw [hrlen]
              omega
            · rw [hrlen]; exact hr
            · rw [hrlen, ← hr]
              exact hcrc.symm
            · rw [hrlen]
              omega
          next hcrc => simp at h
  · rintro ⟨h1, h2, h3, h4, h5⟩
    unfold readAt
    rw [if_neg (by simp only [List.length_drop]; omega)]
    rw [h2]
    rw [if_neg (by simp only [List.length_drop]; omega)]
    rw [h3]
    rw [if_neg (by simp only [List.length_drop]; omega)]
    rw [h4, if_pos rfl, h5]

/-- Claim C5 counterexample: the error returned at an invalid offset is
not always distinguishable from the clean end-of-stream signal.  With one
appended record, `Read` at the exact end of the log returns `io.EOF` (the
end-of-stream signal replay relies on), and `Read` at an invalid offset
five bytes past the end returns the very same `io.EOF` value. -/
theorem invalid_offset_gives_eof_signal :
    FileLog.Read ⟨some (frameOf [104, 105])⟩ (frameOf [104, 105]).length = .error .eof ∧
    FileLog.Read ⟨some (frameOf [104, 105])⟩ ((frameOf [104, 105]).length + 5) =
      .error .eof := by
  exact ⟨rfl, rfl⟩

/-- Claim C5 (amended): errors at invalid offsets are not uniformly
distinguishable from the clean end-of-stream signal.  `Read` at any offset
at or beyond end-of-file returns the EOF signal itself, and so does any
offset where the remaining bytes run out exactly at a field boundary —
right after the length field with a positive declared length, or right
after the declared payload with the checksum missing entirely.  Offsets
whose remaining bytes stop partway through a field — inside the 8-byte
length, inside the declared payload, or inside the 4-byte checksum —
return the unexpected-EOF error, a value distinct from both
`CorruptionError` and EOF.  Replay terminates cleanly exactly on the EOF
signal and aborts with the error itself in every other case.  (Below,
`beVal ((f.drop o).take 8)` is the length the 8 bytes at `o` declare.) -/
theorem read_error_taxonomy :
    (∀ (f : List Nat) (o : Nat), f.length ≤ o → FileLog.Read ⟨some f⟩ o = .error .eof) ∧
    (∀ (f : List Nat) (o : Nat), o < f.length → f.length < o + 8 →
      FileLog.Read ⟨some f⟩ o = .error .unexpectedEOF) ∧
    (∀ (f : List Nat) (o : Nat), f.length = o + 8 → 0 < beVal ((f.drop o).take 8) →
      FileLog.Read ⟨some f⟩ o = .error .eof) ∧
    (∀ (f : List Nat) (o : Nat), o + 8 ≤ f.length → 0 < f.length - (o + 8) →
      f.length - (o + 8) < beVal ((f.drop o).take 8) →
      FileLog.Read ⟨some f⟩ o = .error .unexpectedEOF) ∧
    (∀ (f : List Nat) (o : Nat), o + 8 + beVal ((f.drop o).take 8) = f.length →
      FileLog.Read ⟨some f⟩ o = .error .eof) ∧
    (∀ (f : List Nat) (o : Nat), o + 8 + beVal ((f.drop o).take 8) < f.length →
      f.length < o + 8 + beVal ((f.drop o).take 8) + 4 →
      FileLog.Read ⟨some f⟩ o = .error .unexpectedEOF) ∧
    (∀ (f : List Nat) (o : Nat) (d : KVMap) (e : LogErr), readAt f o = .error e →
      e ≠ .eof → readAllAux f o d = .error e) ∧
    (∀ (f : List Nat) (o : Nat) (d : KVMap), readAt f o = .error .eof →
      readAllAux f o d = .ok d) := by
  refine ⟨?_, ?_, ?_, ?_, ?_, ?_, ?_, ?_⟩
  · intro f o h
    exact readAt_out h
  · intro f o h1 h2
    show readAt f o = _
    unfold readAt
    rw [if_pos (by simp only [List.length_drop]; omega)]
    rw [if_neg (by simp only [List.length_drop]; omega)]
  · intro f o h1 h2
    show readAt f o = _
    unfold readAt
    rw [if_neg (by simp only [List.length_drop]; omega)]
    rw [if_pos (by simp only [List.length_drop]; omega)]
    rw [if_pos (by simp only [List.length_drop]; omega)]
  · intro f o h1 h2 h3
    show readAt f o = _
    unfold readAt
    rw [if_neg (by simp only [List.length_drop]; omega)]
    rw [if_pos (by simp only [List.length_drop]; omega)]
    rw [if_neg (by simp only [List.length_drop]; omega)]
  · intro f o h1
    show readAt f o = _
    unfold readAt
    rw [if_neg (by simp only [List.length_drop]; omega)]
    rw [if_neg (by simp only [List.length_drop]; omega)]
    rw [if_pos (by simp only [List.length_drop]; omega)]
    rw [if_pos (by simp only [List.length_drop]; omega)]
  · intro f o h1 h2
    show readAt f o = _
    unfold readAt
    rw [if_neg (by simp only [List.length_drop]; omega)]
    rw [if_neg (by simp only [List.length_drop]; omega)]
    rw [if_pos (by simp only [List.length_drop]; omega)]
    rw [if_neg (by simp only [List.length_drop]; omega)]
  · intro f o d e h hne
    rw [readAllAux_error h, if_neg hne]
  · intro f o d h
    rw [readAllAux_error h, if_pos rfl]

theorem read_error_taxonomy_witness :
    (([] : List Nat).length ≤ 0 ∧ FileLog.Read ⟨some []⟩ 0 = .error .eof) ∧
    (0 < [0].length ∧ [0].length < 0 + 8 ∧
      FileLog.Read ⟨some [0]⟩ 0 = .error .unexpectedEOF) ∧
    ([0, 0, 0, 0, 0, 0, 0, 1].length = 0 + 8 ∧
      FileLog.Read ⟨some [0, 0, 0, 0, 0, 0, 0, 1]⟩ 0 = .error .eof) ∧
    (FileLog.Read ⟨some [0, 0, 0, 0, 0, 0, 0, 5, 9]⟩ 0 = .error .unexpectedEOF) ∧
    (FileLog.Read ⟨some [0, 0, 0, 0, 0, 0, 0, 2, 7, 7]⟩ 0 = .error .eof) ∧
    (FileLog.Read ⟨some [0, 0, 0, 0, 0, 0, 0, 1, 9, 8]⟩ 0 = .error .unexpectedEOF) ∧
    (readAt [0] 0 = .error .unexpectedEOF ∧ LogErr.unexpectedEOF ≠ .eof ∧
      readAllAux [0] 0 emptyMap = .error .unexpectedEOF) ∧
    (readAt [] 0 = .error .eof ∧ readAllAux [] 0 emptyMap = .ok emptyMap) :=
  ⟨⟨by decide, read_error_taxonomy.1 [] 0 (by decide)⟩,
   ⟨by decide, by decide, read_error_taxonomy.2.1 [0] 0 (by decide) (by decide)⟩,
   ⟨by decide, read_error_taxonomy.2.2.1 [0, 0, 0, 0, 0, 0, 0, 1] 0 (by decide) (by decide)⟩,
   read_error_taxonomy.2.2.2.1 [0, 0, 0, 0, 0, 0, 0, 5, 9] 0
     (by decide) (by decide) (by decide),
   read_error_taxonomy.2.2.2.2.1 [0, 0, 0, 0, 0, 0, 0, 2, 7, 7] 0 (by decide),
   read_error_taxonomy.2.2.2.2.2.1 [0, 0, 0, 0, 0, 0, 0, 1, 9, 8] 0
     (by decide) (by decide),
   ⟨rfl, by decide, read_error_taxonomy.2.2.2.2.2.2.1 [0] 0 emptyMap _ rfl (by decide)⟩,
   ⟨rfl, read_error_taxonomy.2.2.2.2.2.2.2 [] 0 emptyMap rfl⟩⟩

/-- Claim C6: after a successful `Close` the log is in the closed state
(`file = none`); every subsequent `Append` and `Read` fails with the
closed-handle error and nothing reopens the log; a second `Close` finds
the nil handle, does nothing, and succeeds. -/
theorem close_semantics :
    (∀ f : List Nat, FileLog.Close ⟨some f⟩ = .ok ⟨none⟩) ∧
    FileLog.Close ⟨none⟩ = .ok ⟨none⟩ ∧
    (∀ r : List Nat, FileLog.Append ⟨none⟩ r = .error .closed) ∧
    (∀ o : Nat, FileLog.Read ⟨none⟩ o = .error .closed) :=
  ⟨fun _ => rfl, rfl, fun _ => rfl, fun _ => rfl⟩

/-- Claim C7: `Put` and `Delete` touch the map only after a successful
append.  On a closed log the append error is surfaced and no new state is
produced (the map is untouched); on an open log `Put` appends the encoded
PUT record and inserts/overwrites the key, and `Delete` — for any map
whatsoever, so both when the key is present (it is removed) and when it is
absent (a no-op on the map) — appends the encoded DELETE record and
succeeds. -/
theorem put_delete_append_first :
    (∀ (m : KVMap) (k v : List Nat), WriteAheadLog.Put ⟨⟨none⟩, m⟩ k v = .error .closed) ∧
    (∀ (m : KVMap) (k : List Nat), WriteAheadLog.Delete ⟨⟨none⟩, m⟩ k = .error .closed) ∧
    (∀ (f : List Nat) (m : KVMap) (k v : List Nat),
      WriteAheadLog.Put ⟨⟨some f⟩, m⟩ k v =
        .ok ⟨⟨some (f ++ frameOf (encodeOp ⟨PUT, k, v⟩))⟩,
          fun k2 => if k2 = k then some v else m k2⟩) ∧
    (∀ (f : List Nat) (m : KVMap) (k : List Nat),
      WriteAheadLog.Delete ⟨⟨some f⟩, m⟩ k =
        .ok ⟨⟨some (f ++ frameOf (encodeOp ⟨DELETE, k, []⟩))⟩,
          fun k2 => if k2 = k then none else m k2⟩) :=
  ⟨fun _ _ _ => rfl, fun _ _ => rfl, fun _ _ _ _ => rfl, fun _ _ _ => rfl⟩

/-- Claim C8: for a record `r` stored anywhere in the log with its correct
checksum, flipping any single bit of any on-disk payload byte, or of any
of the four stored checksum bytes, makes the next `Read` at the record's
starting offset fail with the corruption error. -/
theorem bit_flip_detected (pre r suf : List Nat) (hb : byteList r) (hlen : r.length < 2 ^ 64)
    (i : Nat) (hi : i < 8) :
    (∀ j, j < r.length →
      FileLog.Read
        ⟨some (pre ++ (beBytes 8 r.length ++ (flipBit r j i ++ (beBytes 4 (crc32 r) ++ suf))))⟩
        pre.length = .error .corruption) ∧
    (∀ j, j < 4 →
      FileLog.Read
        ⟨some (pre ++ (beBytes 8 r.length ++ (r ++ (flipBit (beBytes 4 (crc32 r)) j i ++ suf))))⟩
        pre.length = .error .corruption) := by
  have h8 : (beBytes 8 r.length).length = 8 := beBytes_length ..
  have hmod : r.length % 256 ^ 8 = r.length := by
    apply Nat.mod_eq_of_lt
    calc r.length < 2 ^ 64 := hlen
    _ = 256 ^ 8 := by norm_num
  have hmod2 : crc32 r % 256 ^ 4 = crc32 r := by
    apply Nat.mod_eq_of_lt
    calc crc32 r < 2 ^ 32 := crc32_lt hb
    _ = 256 ^ 4 := by norm_num
  constructor
  · intro j hj
    have hflen : (flipBit r j i).length = r.length := by simp [flipBit]
    have hcl : (beBytes 4 (crc32 r)).length = 4 := beBytes_length ..
    have hcore : readAt
        (beBytes 8 r.length ++ (flipBit r j i ++ (beBytes 4 (crc32 r) ++ suf))) 0 =
        .error .corruption := by
      simp only [readAt, List.drop_zero, List.take_left' h8, List.drop_left' h8,
        beVal_beBytes, hmod, hmod2, List.take_left' hflen, List.drop_left' hflen,
        List.take_left' hcl, List.length_append, h8, hcl, hflen]
      rw [if_neg (by omega), if_neg (by omega), if_neg (by omega),
        if_neg (crc32_flipBit_ne hb hj hi)]
    show readAt _ _ = _
    rw [show pre.length = pre.length + 0 from (Nat.add_zero _).symm,
      readAt_shift pre _ 0, hcore]
  · intro j hj
    have hj4 : j < (beBytes 4 (crc32 r)).length := by rw [beBytes_length]; exact hj
    have hflen4 : (flipBit (beBytes 4 (crc32 r)) j i).length = 4 := by
      simp [flipBit, beBytes_length]
    have hgd : (beBytes 4 (crc32 r)).getD j 0 = (beBytes 4 (crc32 r)).get ⟨j, hj4⟩ := by
      simp [List.getD_eq_getElem?_getD, List.getElem?_eq_getElem hj4]
    have hbv : beVal (beBytes 4 (crc32 r)) = crc32 r := by
      rw [beVal_beBytes, hmod2]
    have hne : beVal (flipBit (beBytes 4 (crc32 r)) j i) ≠ crc32 r := by
      rw [flipBit, hgd]
      intro hcontra
      exact (beVal_set_ne hj4 (flip_byte_ne i)) (hcontra.trans hbv.symm)
    have hcore : readAt
        (beBytes 8 r.length ++ (r ++ (flipBit (beBytes 4 (crc32 r)) j i ++ suf))) 0 =
        .error .corruption := by
      simp only [readAt, List.drop_zero, List.take_left' h8, List.drop_left' h8,
        beVal_beBytes, hmod, hmod2, List.take_left, List.drop_left,
        List.take_left' hflen4, List.length_append, h8, hflen4]
      rw [if_neg (by omega), if_neg (by omega), if_neg (by omega),
        if_neg fun hcontra => hne hcontra.symm]
    show readAt _ _ = _
    rw [show pre.length = pre.length + 0 from (Nat.add_zero _).symm,
      readAt_shift pre _ 0, hcore]

theorem bit_flip_detected_witness :
    byteList [9] ∧ [9].length < 2 ^ 64 ∧ (0 : Nat) < 8 ∧ (0 : Nat) < [9].length ∧
    FileLog.Read
      ⟨some ([] ++ (beBytes 8 [9].length ++ (flipBit [9] 0 0 ++ (beBytes 4 (crc32 [9]) ++ []))))⟩
      ([] : List Nat).length = .error .corruption :=
  ⟨by decide, by decide, by decide, by decide,
    (bit_flip_detected [] [9] [] (by decide) (by decide) 0 (by decide)).1 0 (by decide)⟩

/-- Claim C9: a successful `Put k v` or `Delete k` changes at most the
entry of the byte-for-byte equal key `k`: `Get` on any other key `k2`
returns exactly what it returned before the mutation. -/
theorem mutation_preserves_other_keys (w w2 : WriteAheadLog) (k v k2 : List Nat)
    (hne : k2 ≠ k) :
    (w.Put k v = .ok w2 → w2.Get k2 = w.Get k2) ∧
    (w.Delete k = .ok w2 → w2.Get k2 = w.Get k2) := by
  obtain ⟨⟨file⟩, data⟩ := w
  cases file with
  | none =>
    constructor <;>
      (intro h; simp [WriteAheadLog.Put, WriteAheadLog.Delete, FileLog.Append] at h)
  | some f =>
    constructor
    · intro h
      rw [← Except.ok.inj h]
      show Except.ok _ = _
      simp [WriteAheadLog.Get, hne]
    · intro h
      rw [← Except.ok.inj h]
      show Except.ok _ = _
      simp [WriteAheadLog.Get, hne]

theorem mutation_preserves_other_keys_witness :
    ([2] : List Nat) ≠ [1] ∧
    WriteAheadLog.Get
      ⟨⟨some ([] ++ frameOf (encodeOp ⟨PUT, [1], [9]⟩))⟩,
        fun kk => if kk = [1] then some [9] else emptyMap kk⟩ [2] =
      WriteAheadLog.Get freshWal [2] :=
  ⟨by decide,
    (mutation_preserves_other_keys freshWal _ [1] [9] [2] (by decide)).1 rfl⟩

/-- Claim C10: during replay, a well-framed record whose payload decodes
to a `WriteOperation` whose tag is neither `PUT` nor `DELETE` falls
through the switch — the map is unchanged and replay continues with the
records after it — while a record whose payload fails to decode aborts
replay with the decoder's error. -/
theorem replay_unknown_type_skipped :
    (∀ (p g : List Nat) (d : KVMap) (op : WriteOperation),
      byteList p → p.length < 2 ^ 64 → decodeOp p = some op →
      op.WriteOperationType ≠ PUT → op.WriteOperationType ≠ DELETE →
      readAllAux (frameOf p ++ g) 0 d = readAllAux g 0 d) ∧
    (∀ (p g : List Nat) (d : KVMap),
      byteList p → p.length < 2 ^ 64 → decodeOp p = none →
      readAllAux (frameOf p ++ g) 0 d = .error .decodeFail) := by
  constructor
  · intro p g d op hb hlen hdec ht1 ht2
    rw [readAllAux_step (readAt_frame g hb hlen), hdec]
    show readAllAux (frameOf p ++ g) (8 + p.length + 4) (applyOp d op) = _
    have happ : applyOp d op = d := by
      unfold applyOp
      rw [if_neg ht1, if_neg ht2]
    rw [happ]
    have hlenf : 8 + p.length + 4 = (frameOf p).length + 0 := by
      rw [frameOf_length]
    rw [hlenf, readAllAux_shift (frameOf p) g g.length 0 (by omega) d]
  · intro p g d hb hlen hdec
    rw [readAllAux_step (readAt_frame g hb hlen), hdec]

theorem replay_unknown_type_skipped_witness :
    (byteList (encodeOp ⟨2, [5], [6]⟩) ∧ (encodeOp ⟨2, [5], [6]⟩).length < 2 ^ 64 ∧
      decodeOp (encodeOp ⟨2, [5], [6]⟩) = some ⟨2, [5], [6]⟩ ∧
      WriteOperation.WriteOperationType ⟨2, [5], [6]⟩ ≠ PUT ∧
      WriteOperation.WriteOperationType ⟨2, [5], [6]⟩ ≠ DELETE ∧
      readAllAux (frameOf (encodeOp ⟨2, [5], [6]⟩) ++ [7]) 0 emptyMap =
        readAllAux [7] 0 emptyMap) ∧
    (byteList [] ∧ ([] : List Nat).length < 2 ^ 64 ∧ decodeOp [] = none ∧
      readAllAux (frameOf [] ++ [7]) 0 emptyMap = .error .decodeFail) :=
  ⟨⟨by decide, by decide, by decide, by decide, by decide,
    replay_unknown_type_skipped.1 (encodeOp ⟨2, [5], [6]⟩) [7] emptyMap ⟨2, [5], [6]⟩
      (by decide) (by decide) (by decide) (by decide) (by decide)⟩,
   ⟨by decide, by decide, rfl,
    replay_unknown_type_skipped.2 [] [7] emptyMap (by decide) (by decide) rfl⟩⟩

end Wal
